import Mathlib

/-!
Verification of the Resonance AI-host core against its specification.

The definitions below are a shallow embedding of the Python sources:

* `backend/core/memory.py` — `ConversationMemory`: the per-session message
  log, the tool-chain sanitizer `_sanitize_context`, the sliding-window
  context builder `get_active_context`, and message appending
  `_append_message`.
* `backend/core/rag_store.py` — `RAGStore`: the three search strategies
  (`_search_semantic`, `_search_hybrid_time`, `_search_hybrid_bm25`), the
  access-statistics update `_increment_stats`, and the `BM25.search`
  post-processing.
* `backend/core/skill_manager.py` — `SkillManager.learn_skill` and
  `_parse_and_register` / `_setup_environment`.
* `backend/core/host_agent.py` — the configuration lookup for the retrieval
  strategy, and `_supervisor_check` with its use inside `chat`.

External collaborators (the vector database, the LLM endpoint, the OS
clock, git / pip subprocesses) are modelled as explicit inputs: the
functions below receive their outcomes as arguments, exactly where the
Python code receives them from a library call.
-/

/-! ## Messages (backend/core/memory.py data model) -/

/-- Message roles. `ConversationMemory` only ever writes the four roles
`user`, `assistant`, `tool`, `system`. -/
inductive Role where
  | user
  | assistant
  | tool
  | system
deriving DecidableEq, Repr

/-- One entry of an assistant message's `tool_calls` list, as stored by
`add_ai_tool_call`: a dict with keys `id`, `type` and
`function = \x7bname, arguments\x7d`.  The sanitizer reads only `id`; the
remaining fields ride along inertly. -/
structure ToolCall where
  id : String
  name : String
  arguments : String
deriving DecidableEq, Repr

/-- A conversation message.  Python stores messages as dicts; absent keys
are modelled with `Option`/`[]` defaults.  An empty `tool_calls` list
models both a missing key and Python-falsy values (the code only tests
truthiness before indexing). -/
structure Msg where
  role : Role
  content : String
  tool_calls : List ToolCall := []
  tool_call_id : Option String := none
  name : Option String := none
  id : Option String := none
  timestamp : Option Nat := none
deriving DecidableEq, Repr

/-! ## String helpers (Python's `in` substring test) -/

/-- Helper for `strContainsSub`: whether the first char list begins the
second (char-by-char comparison). -/
def listBeginsWith : List Char → List Char → Bool
  | [], _ => true
  | _ :: _, [] => false
  | a :: as, b :: bs => a = b && listBeginsWith as bs

/-- Helper for `strContainsSub`: search for `pat` at every suffix. -/
def suffixSearch (pat : List Char) : List Char → Bool
  | [] => listBeginsWith pat []
  | c :: rest => listBeginsWith pat (c :: rest) || suffixSearch pat rest

/-- Python's `pat in s` substring containment. -/
def strContainsSub (s pat : String) : Bool :=
  suffixSearch pat.data s.data

/-! ## The sanitizer (`ConversationMemory._sanitize_context`) -/

/-- Content of tool messages synthesized mid-walk when a non-tool message
arrives while tool_call ids are still pending (memory.py line 170). -/
def interruptedContent : String :=
  "Error: Tool execution was interrupted. System recovered."

/-- Content of tool messages synthesized at the end of the slice for
residual pending ids (memory.py line 194). -/
def incompleteContent : String :=
  "Error: Tool sequence incomplete at log end."

/-- A synthesized recovery tool message: the Python dict
`\x7brole: tool, tool_call_id: missing_id, content: c\x7d`. -/
def mkRecoveryMsg (c : String) (tid : String) : Msg :=
  { role := .tool, content := c, tool_call_id := some tid }

/-- Python's `list.remove`: drop the first occurrence.  The sanitizer only
calls it after a membership test, so the missing-element case is never
reached. -/
def removeFirst : List String → String → List String
  | [], _ => []
  | x :: xs, t => if x = t then xs else x :: removeFirst xs t

/-- The pending ids opened by a message: `[tc['id'] for tc in
msg['tool_calls']]` when the message is an assistant with (truthy)
tool_calls, `[]` otherwise. -/
def pendingOf (m : Msg) : List String :=
  if m.role = .assistant ∧ m.tool_calls ≠ [] then m.tool_calls.map ToolCall.id
  else []

/-- The walk of `_sanitize_context` (memory.py lines 144-197), with the
running `pending_ids` list made explicit.

* a tool message whose `tool_call_id` is pending is kept and its id
  removed from pending; any other tool message is dropped (orphan);
* a non-tool message arriving while ids are pending first triggers one
  synthesized tool message per pending id with `interruptedContent`, and
  the message itself then (re)opens pending ids if it is an assistant
  with tool_calls;
* at end of input every residual pending id yields a synthesized tool
  message with `incompleteContent`. -/
def sanitizeAux (pending : List String) : List Msg → List Msg
  | [] => pending.map (mkRecoveryMsg incompleteContent)
  | m :: rest =>
    if m.role = .tool then
      match m.tool_call_id with
      | some tid =>
        if tid ∈ pending then m :: sanitizeAux (removeFirst pending tid) rest
        else sanitizeAux pending rest
      | none => sanitizeAux pending rest
    else if pending = [] then
      m :: sanitizeAux (pendingOf m) rest
    else
      pending.map (mkRecoveryMsg interruptedContent) ++ m :: sanitizeAux (pendingOf m) rest

/-- `ConversationMemory._sanitize_context`: the walk starting with an
empty pending list (the `if not messages: return []` early exit coincides
with `sanitizeAux [] [] = []`). -/
def sanitize_context (messages : List Msg) : List Msg :=
  sanitizeAux [] messages

/-! ## The context builder (`ConversationMemory.get_active_context`) -/

/-- The filter of memory.py line 213: keep a message unless it is a
`system` message whose content does not contain the substring
`"Supervisor"`. -/
def keepMsg (m : Msg) : Bool :=
  m.role ≠ .system || strContainsSub m.content "Supervisor"

/-- Python's trailing slice `xs[-w:]` for a natural `w`: the whole list
when `w = 0` (Python's `xs[-0:]` is `xs[0:]`), otherwise the last `w`
elements. -/
def pySliceLast (w : Nat) (xs : List Msg) : List Msg :=
  if w = 0 then xs else xs.drop (xs.length - w)

/-- The field filter of memory.py lines 222-227: keep only the keys
`role`, `content`, `tool_calls`, `tool_call_id`, `name`; `timestamp` and
`id` are dropped. -/
def stripFields (m : Msg) : Msg :=
  { m with id := none, timestamp := none }

/-- The persistent state a `ConversationMemory` instance reads: the full
on-disk log and the configured window size. -/
structure MemoryState where
  log : List Msg
  windowSize : Nat

/-- `ConversationMemory.get_active_context` (memory.py lines 199-228):
read the log, filter system messages lacking `"Supervisor"`, take the
trailing window, sanitize, and strip non-wire fields. -/
def get_active_context (st : MemoryState) : List Msg :=
  if st.log = [] then []
  else
    let conversation := st.log.filter keepMsg
    let windowed := pySliceLast st.windowSize conversation
    (sanitize_context windowed).map stripFields

/-! ## Invariant M-1 checkers -/

/-- Strict chain integrity, the literal reading of Invariant M-1: every
assistant message with tool_calls is immediately followed by exactly one
tool message per call, matched by `call_id`, in call order; no tool
message appears outside such a block.  The first argument is the list of
ids still owed to the preceding assistant. -/
def m1StrictAux : List String → List Msg → Bool
  | [], [] => true
  | _ :: _, [] => false
  | [], m :: rest =>
    if m.role = .tool then false
    else m1StrictAux (pendingOf m) rest
  | tid :: tids, m :: rest =>
    (m.role = .tool && m.tool_call_id = some tid) && m1StrictAux tids rest

/-- Strict M-1 on a whole sequence. -/
def m1Strict (xs : List Msg) : Bool :=
  m1StrictAux [] xs

/-- Chain integrity up to response order: every assistant message with
tool_calls is immediately followed by exactly one tool message per call,
matched by `call_id`, the block's ids forming a permutation of the call
ids (each consumed once); no tool message appears outside such a block. -/
def m1PermAux : List String → List Msg → Bool
  | [], [] => true
  | _ :: _, [] => false
  | [], m :: rest =>
    if m.role = .tool then false
    else m1PermAux (pendingOf m) rest
  | p :: ps, m :: rest =>
    if m.role = .tool then
      match m.tool_call_id with
      | some tid =>
        decide (tid ∈ p :: ps) && m1PermAux (removeFirst (p :: ps) tid) rest
      | none => false
    else false

/-- Order-insensitive M-1 on a whole sequence. -/
def m1Perm (xs : List Msg) : Bool :=
  m1PermAux [] xs

/-! ## Message appending (`ConversationMemory._append_message`) -/

/-- `_append_message` (memory.py lines 77-86): stamp the wall clock onto
the message, and when no `id` is present assign
`str(int(time.time() * 1000))`.  The clock is an explicit input in
milliseconds; `toString nowMs` is Python's decimal rendering. -/
def append_message (history : List Msg) (message : Msg) (nowMs : Nat) : List Msg :=
  let stamped := { message with timestamp := some nowMs }
  let withId :=
    if stamped.id = none then { stamped with id := some (toString nowMs) }
    else stamped
  history ++ [withId]

/-! ## Retrieval store (backend/core/rag_store.py) -/

/-- Metadata of a `MemoryRecord`.  Python keeps ISO-8601 strings for
`timestamp` / `last_accessed`; `_search_hybrid_time` only uses the age in
whole days, so times are modelled as integer day indices, with `none`
standing for a missing or unparseable `timestamp` (the `except: pass`
around `fromisoformat`). -/
structure MemMeta where
  mtype : String
  timestamp : Option Int
  access_count : Nat
  last_accessed : Int
deriving DecidableEq, Repr

/-- One stored record of the vector collection: id, document text and
metadata. -/
structure MemRecord where
  rid : String
  document : String
  meta : MemMeta
deriving DecidableEq, Repr

/-- Distance-to-similarity conversion `1.0 / (1.0 + d)` used by every
semantic path (rag_store.py lines 366 and 423). -/
def simOfDist (d : ℚ) : ℚ :=
  1 / (1 + d)

/-- The time-decay factor of `_search_hybrid_time` (rag_store.py lines
369-375): default `0.5`; with a parseable timestamp,
`1.0 / (1.0 + 0.1 * days)` where `days = (now - dt).days`; a zero
denominator raises `ZeroDivisionError`, which the bare `except` swallows,
leaving the default. -/
def timeDecayScore (now : Int) (ts : Option Int) : ℚ :=
  match ts with
  | none => 1 / 2
  | some t =>
    let days : Int := now - t
    if (1 + (days : ℚ) / 10) = 0 then 1 / 2
    else 1 / (1 + (days : ℚ) / 10)

/-- The per-record metadata rewrite of `_increment_stats` (rag_store.py
lines 482-486): copy, bump `access_count` by one, set `last_accessed` to
the current time. -/
def bumpMeta (now : Int) (m : MemMeta) : MemMeta :=
  { m with access_count := m.access_count + 1, last_accessed := now }

/-- The per-record effect of `collection.update(ids, metadatas)`: when
the record's id appears in the update list, replace its metadata. -/
def applyUpd (upd : List (String × MemMeta)) (r : MemRecord) : MemRecord :=
  match upd.find? (fun p => decide (p.1 = r.rid)) with
  | some p => { r with meta := p.2 }
  | none => r

/-- `collection.update(ids, metadatas)` of the vector store: replace the
metadata of each record whose id appears in the update list (ids in a
Chroma collection are unique). -/
def collection_update (store : List MemRecord) (upd : List (String × MemMeta)) :
    List MemRecord :=
  store.map (applyUpd upd)

/-- `RAGStore._increment_stats` (rag_store.py lines 480-487): build the
bumped metadata list and push it to the collection. -/
def increment_stats (now : Int) (ids : List String) (metas : List MemMeta)
    (store : List MemRecord) : List MemRecord :=
  collection_update store (ids.zip (metas.map (bumpMeta now)))

/-- `RAGStore._search_semantic` (rag_store.py lines 331-342).  The vector
database's ranked answer (`collection.query`) is the explicit input
`queryRes`; `statsOk` is whether the fire-and-forget `_increment_stats`
call succeeded (its failure is swallowed by `except: pass`). -/
def search_semantic (store : List MemRecord) (queryRes : List MemRecord)
    (now : Int) (statsOk : Bool) : List String × List MemRecord :=
  if queryRes = [] then ([], store)
  else
    (queryRes.map MemRecord.document,
     if statsOk then
       increment_stats now (queryRes.map MemRecord.rid) (queryRes.map MemRecord.meta) store
     else store)

/-- A record paired with its final combined score. -/
structure ScoredRec where
  record : MemRecord
  score : ℚ
deriving DecidableEq, Repr

/-- Stable descending insertion by key: insert after every element whose
key is at least as large.  Folding it over a list reproduces Python's
stable `list.sort(key=…, reverse=True)`. -/
def insertDescBy (f : α → ℚ) (x : α) : List α → List α
  | [] => [x]
  | y :: ys => if f y < f x then x :: y :: ys else y :: insertDescBy f x ys

/-- Python's stable descending sort by a rational key. -/
def sortDescBy (f : α → ℚ) (xs : List α) : List α :=
  xs.foldl (fun acc x => insertDescBy f x acc) []

/-- The scoring of `_search_hybrid_time` (rag_store.py lines 361-378):
`semantic_score * 0.7 + time_score * 0.3` per candidate returned by the
vector database (record with its distance). -/
def hybridTimeScore (now : Int) (rd : MemRecord × ℚ) : ScoredRec :=
  ⟨rd.1, simOfDist rd.2 * (7 / 10) + timeDecayScore now rd.1.meta.timestamp * (3 / 10)⟩

/-- The records selected by `_search_hybrid_time`: score every candidate,
sort descending, keep the first `nResults`. -/
def hybrid_time_selected (semRes : List (MemRecord × ℚ)) (now : Int)
    (nResults : Nat) : List ScoredRec :=
  (sortDescBy ScoredRec.score ((semRes.map (hybridTimeScore now)))).take nResults

/-- `RAGStore._search_hybrid_time` (rag_store.py lines 344-387): return
the selected documents and apply `_increment_stats` to the selected
records (failure swallowed). -/
def search_hybrid_time (store : List MemRecord) (semRes : List (MemRecord × ℚ))
    (now : Int) (nResults : Nat) (statsOk : Bool) : List String × List MemRecord :=
  if semRes = [] then ([], store)
  else
    let top := hybrid_time_selected semRes now nResults
    (top.map (fun x => x.record.document),
     if statsOk then
       increment_stats now (top.map (fun x => x.record.rid)) (top.map (fun x => x.record.meta)) store
     else store)

/-- `BM25.search` (rag_store.py lines 87-101) with the scoring function
abstracted: score every document index, keep strictly positive scores,
sort descending, truncate to `topK`.  The claims touched here depend only
on this post-processing, not on the BM25 formula itself. -/
def bm25Search (score : Nat → ℚ) (corpusSize topK : Nat) : List (Nat × ℚ) :=
  (sortDescBy Prod.snd
    (((List.range corpusSize).map (fun i => (i, score i))).filter
      (fun p => decide (0 < p.2)))).take topK

/-- One fusion candidate of `_search_hybrid_bm25`: the dict entry
`\x7bdoc, meta, sem_score, bm25_score\x7d` keyed by record id. -/
structure FusionCand where
  record : MemRecord
  sem_score : ℚ
  bm25_score : ℚ
deriving DecidableEq, Repr

/-- The running maximum of the semantic similarities
(`sem_max_score`, rag_store.py lines 414-424), starting at `0.0`. -/
def semMaxOf (semRes : List (MemRecord × ℚ)) : ℚ :=
  semRes.foldl (fun acc rd => max acc (simOfDist rd.2)) 0

/-- `bm25_max_score` (rag_store.py lines 433-435): `0.0` when the BM25
result list is empty, else the score of its first (top-ranked) entry. -/
def bm25MaxOf (bm25Res : List (Nat × ℚ)) : ℚ :=
  match bm25Res with
  | [] => 0
  | x :: _ => x.2

/-- Folding the BM25 results into the candidate map (rag_store.py lines
436-450): look each index up in `memory_docs_cache`; a known record id
gets its `bm25_score` set, an unseen one is appended with `sem_score`
`0.0`. -/
def addBm25 (cache : List MemRecord) : List FusionCand → List (Nat × ℚ) → List FusionCand
  | cands, [] => cands
  | cands, (idx, s) :: rest =>
    if h : idx < cache.length then
      let r := cache.get ⟨idx, h⟩
      if cands.any (fun c => decide (c.record.rid = r.rid)) then
        addBm25 cache
          (cands.map (fun c =>
            if c.record.rid = r.rid then { c with bm25_score := s } else c)) rest
      else
        addBm25 cache (cands ++ [⟨r, 0, s⟩]) rest
    else addBm25 cache cands rest

/-- Normalisation and weighting of `_search_hybrid_bm25` (rag_store.py
lines 452-467): divide each score by the respective maximum when that
maximum is positive (else `0`), then take
`0.7 * norm_sem + 0.3 * norm_bm25`. -/
def fusionScores (semMax bm25Max : ℚ) (cands : List FusionCand) : List ScoredRec :=
  cands.map (fun c =>
    let normSem := if 0 < semMax then c.sem_score / semMax else 0
    let normBm := if 0 < bm25Max then c.bm25_score / bm25Max else 0
    ⟨c.record, 7 / 10 * normSem + 3 / 10 * normBm⟩)

/-- The records selected by `_search_hybrid_bm25`: build the candidate
map from the semantic answer and the BM25 answer, normalise, weight, sort
descending, keep the first `nResults`. -/
def hybrid_bm25_selected (semRes : List (MemRecord × ℚ)) (bm25Res : List (Nat × ℚ))
    (cache : List MemRecord) (nResults : Nat) : List ScoredRec :=
  let cands := addBm25 cache (semRes.map (fun rd => ⟨rd.1, simOfDist rd.2, 0⟩)) bm25Res
  (sortDescBy ScoredRec.score (fusionScores (semMaxOf semRes) (bm25MaxOf bm25Res) cands)).take nResults

/-- `RAGStore._search_hybrid_bm25` (rag_store.py lines 389-478): return
the selected documents and apply `_increment_stats` to the selected
records (failure swallowed). -/
def search_hybrid_bm25 (store : List MemRecord) (semRes : List (MemRecord × ℚ))
    (bm25Res : List (Nat × ℚ)) (cache : List MemRecord) (nResults : Nat)
    (now : Int) (statsOk : Bool) : List String × List MemRecord :=
  let top := hybrid_bm25_selected semRes bm25Res cache nResults
  (top.map (fun x => x.record.document),
   if statsOk then
     increment_stats now (top.map (fun x => x.record.rid)) (top.map (fun x => x.record.meta)) store
   else store)

/-- Look a record up by id in the collection (Chroma ids are unique). -/
def findRec (store : List MemRecord) (rid : String) : Option MemRecord :=
  store.find? (fun x => decide (x.rid = rid))

/-! ## Strategy selection (rag_store.py `search_memory`, host_agent.py `chat`) -/

/-- Which concrete search routine a strategy string selects. -/
inductive StrategyKind where
  | semantic
  | hybridTime
  | hybridBm25
deriving DecidableEq, Repr

/-- The dispatch of `RAGStore.search_memory` (rag_store.py lines 320-325):
`"hybrid_bm25"` and `"hybrid_time"` pick the hybrid routines, every other
string falls through to `_search_semantic`. -/
def strategyDispatch (s : String) : StrategyKind :=
  if s = "hybrid_bm25" then .hybridBm25
  else if s = "hybrid_time" then .hybridTime
  else .semantic

/-- The external answers a `search_memory` call consumes: the vector
database's ranked results (without and with distances), the BM25 answer,
the `memory_docs_cache` snapshot, and the requested result count. -/
structure SearchInputs where
  queryRes : List MemRecord := []
  semRes : List (MemRecord × ℚ) := []
  bm25Res : List (Nat × ℚ) := []
  cache : List MemRecord := []
  nResults : Nat := 3
deriving Repr

/-- `RAGStore.search_memory` (rag_store.py lines 304-329): dispatch on
the strategy string — `"hybrid_bm25"`, `"hybrid_time"`, anything else
semantic — and run the corresponding routine. -/
def search_memory (store : List MemRecord) (s : String) (inp : SearchInputs)
    (now : Int) (statsOk : Bool) : List String × List MemRecord :=
  match strategyDispatch s with
  | .hybridBm25 =>
    search_hybrid_bm25 store inp.semRes inp.bm25Res inp.cache inp.nResults now statsOk
  | .hybridTime => search_hybrid_time store inp.semRes now inp.nResults statsOk
  | .semantic => search_semantic store inp.queryRes now statsOk

/-- The set R of records a `search_memory` call returns (per strategy,
the records backing the returned document list). -/
def selected_records (s : String) (inp : SearchInputs) (now : Int) : List MemRecord :=
  match strategyDispatch s with
  | .hybridBm25 =>
    (hybrid_bm25_selected inp.semRes inp.bm25Res inp.cache inp.nResults).map ScoredRec.record
  | .hybridTime => (hybrid_time_selected inp.semRes now inp.nResults).map ScoredRec.record
  | .semantic => inp.queryRes

/-- The `memory` section of `config.yaml` as `chat` reads it. -/
structure MemoryCfg where
  rag_strategy : Option String := none
  retrieve_top_k : Option Nat := none
  window_size : Option Nat := none

/-- The `system` section of `config.yaml`. -/
structure SystemCfg where
  memory : Option MemoryCfg := none

/-- The top-level configuration dict. -/
structure Config where
  system : Option SystemCfg := none

/-- host_agent.py line 474:
`config.get('system', {}).get('memory', {}).get('rag_strategy', 'semantic')`. -/
def ragStrategyOf (cfg : Config) : String :=
  (((cfg.system.bind SystemCfg.memory).bind MemoryCfg.rag_strategy)).getD "semantic"

/-- The retrieval routine a turn of `HostAgent.chat` ends up in: the
strategy string read from config (host_agent.py line 474) fed into the
`search_memory` dispatch (rag_store.py lines 320-325). -/
def chat_retrieval_kind (cfg : Config) : StrategyKind :=
  strategyDispatch (ragStrategyOf cfg)

/-! ## Supervisor (`HostAgent._supervisor_check` and its use in `chat`) -/

/-- The JSON verdict the supervisor prompt asks for. -/
structure Verdict where
  status : String
  instruction : Option String
deriving DecidableEq, Repr

/-- Outcome of the supervisor's LLM call: the request may raise, or
return content that `json.loads` parses (or fails to parse, `ok none`). -/
inductive LLMOutcome where
  | fail (err : String)
  | ok (parsed : Option Verdict)
deriving DecidableEq, Repr

/-- `HostAgent._supervisor_check` (host_agent.py lines 436-448): any
exception from the LLM call or from `json.loads` is caught and replaced
by the verdict `\x7b"status": "COMPLETE"\x7d`. -/
def supervisor_check : LLMOutcome → Verdict
  | .fail _ => ⟨"COMPLETE", none⟩
  | .ok none => ⟨"COMPLETE", none⟩
  | .ok (some v) => v

/-- What the outer loop of `chat` does next. -/
inductive TurnPhase where
  | react
  | finalize
deriving DecidableEq, Repr

/-- host_agent.py line 478. -/
def MAX_SUPERVISOR_LOOPS : Nat := 3

/-- The system message injected on an INCOMPLETE verdict (host_agent.py
line 607). -/
def supervisorMsg (instruction : String) : String :=
  "[👮 SUPERVISOR INTERVENTION]: Task not finished. " ++ instruction ++
    " Continue executing the plan immediately."

/-- The supervisor decision point of `chat` (host_agent.py lines
599-621), entered when the ReAct loop finished with prose: below the loop
bound, an INCOMPLETE verdict increments the counter, injects the
supervisor system message and re-enters ReAct; anything else finalizes
the turn. -/
def supervisor_step (supervisorLoops : Nat) (outcome : LLMOutcome) :
    TurnPhase × Nat × Option String :=
  if supervisorLoops < MAX_SUPERVISOR_LOOPS then
    let decision := supervisor_check outcome
    if decision.status = "INCOMPLETE" then
      (.react, supervisorLoops + 1,
        some (supervisorMsg (decision.instruction.getD "Task incomplete.")))
    else (.finalize, supervisorLoops, none)
  else (.finalize, supervisorLoops, none)

/-! ## Skill manager (backend/core/skill_manager.py) -/

/-- A parsed `skill.yaml` / `mcp.json` definition (the keys
`_parse_and_register` reads). -/
structure SkillDef where
  defname : Option String := none
  description : Option String := none
  entry_point : Option String := none
  main : Option String := none
deriving DecidableEq, Repr

/-- What a skill directory contains after download/copy: the optional
definition files, the names of files present, and whether a
`requirements.txt` exists. -/
structure SkillDirContent where
  skillYaml : Option SkillDef := none
  mcpJson : Option SkillDef := none
  files : List String := []
  hasRequirements : Bool := false
deriving DecidableEq, Repr

/-- State owned by `SkillManager`: the skills root directory (name to
directory content), the in-memory registry `loaded_skills` (name to
description), and the `imported_skills` config section (names). -/
structure SkillSystemState where
  skillsRoot : List (String × SkillDirContent) := []
  loaded_skills : List (String × String) := []
  imported_skills : List String := []
deriving DecidableEq, Repr

/-- Look a directory up in the skills root (`os.path.exists(target_dir)`
and reading it). -/
def lookupDir (root : List (String × SkillDirContent)) (name : String) :
    Option SkillDirContent :=
  (root.find? (fun p => decide (p.1 = name))).map Prod.snd

/-- `shutil.rmtree` + `shutil.copytree` into the skills root: replace any
existing directory of that name by the copied content. -/
def setDir (root : List (String × SkillDirContent)) (name : String)
    (content : SkillDirContent) : List (String × SkillDirContent) :=
  (root.filter (fun p => decide (¬ p.1 = name))) ++ [(name, content)]

/-- The exceptions `learn_skill`'s pipeline can raise. -/
inductive LearnErr where
  | cloneFailed
  | venvPythonMissing
  | pipInstallFailed
  | noDefinitionFound
  | entryPointMissing
deriving DecidableEq, Repr

/-- `SkillManager._setup_environment` (skill_manager.py lines 154-202):
raises when the venv python is missing after creation, or when a
`requirements.txt` exists and `pip install` fails; the outcomes of those
subprocesses are explicit inputs. -/
def setup_environment (content : SkillDirContent) (venvOk pipOk : Bool) :
    Except LearnErr Unit :=
  if ¬ venvOk then .error .venvPythonMissing
  else if content.hasRequirements ∧ ¬ pipOk then .error .pipInstallFailed
  else .ok ()

/-- The definition `_parse_and_register` settles on (skill_manager.py
lines 208-238): `skill.yaml` first, then `mcp.json`, then the
auto-detected fallback when a `main.py` exists (its Python description
text quotes the skill name in single quotes, elided here). -/
def skillDefinitionOf (content : SkillDirContent) (skillName : String) :
    Option SkillDef :=
  match content.skillYaml with
  | some d => some d
  | none =>
    match content.mcpJson with
    | some d => some d
    | none =>
      if "main.py" ∈ content.files then
        some { defname := some skillName
               description := some ("Auto-detected skill " ++ skillName ++
                 ". Runs main.py. Pass arguments as --key value.")
               entry_point := some "main.py" }
      else none

/-- `SkillManager._parse_and_register` (skill_manager.py lines 204-257):
raises `FileNotFoundError` when no definition source exists, resolves the
entry point as `entry_point or main or "main.py"`, raises when the entry
point file is absent, and only then writes the registry entry. -/
def parse_and_register (content : SkillDirContent) (skillName : String)
    (registry : List (String × String)) : Except LearnErr (List (String × String)) :=
  match skillDefinitionOf content skillName with
  | none => .error .noDefinitionFound
  | some d =>
    let entry := ((d.entry_point).orElse (fun _ => d.main)).getD "main.py"
    if entry ∈ content.files then
      .ok (registry ++ [(skillName, (d.description).getD "No description provided.")])
    else .error .entryPointMissing

/-- The source argument of `learn_skill` together with the facts the
pipeline observes about it: whether it is an URL, whether the local path
exists, the directory content a clone/copy would produce, the name
`_generate_skill_name` derives, and whether the local path already is the
target directory (in-place load). -/
structure LearnSource where
  isUrl : Bool
  srcExists : Bool
  content : SkillDirContent
  derivedName : String
  inPlace : Bool
deriving DecidableEq, Repr

/-- Outcomes of the external commands `learn_skill` runs. -/
structure EnvOutcome where
  gitAvailable : Bool
  cloneOk : Bool
  venvOk : Bool
  pipOk : Bool
deriving DecidableEq, Repr

/-- The value `learn_skill` returns, abstracted from its message strings:
`success` is the green check message, `alreadyExists` / `gitMissing` /
`sourceMissing` are the early plain-text returns, and `failed` is the
catch-all red cross message produced by the surrounding
`try/except`. -/
inductive LearnOutcome where
  | success (name : String)
  | alreadyExists (name : String)
  | gitMissing
  | sourceMissing
  | failed (err : LearnErr)
deriving DecidableEq, Repr

/-- `SkillManager.learn_skill` (skill_manager.py lines 73-130): acquire
the code (clone or copy into the skills root), set up the environment,
parse and register, persist to config.  Every exception from the three
pipeline steps is caught by the outer `try/except`, which returns the
failure message — without removing the directory that was just copied
and without touching registry or config. -/
def learn_skill (st : SkillSystemState) (src : LearnSource) (env : EnvOutcome) :
    LearnOutcome × SkillSystemState :=
  let name := src.derivedName
  if src.isUrl then
    if (lookupDir st.skillsRoot name).isSome then (.alreadyExists name, st)
    else if ¬ env.gitAvailable then (.gitMissing, st)
    else if ¬ env.cloneOk then (.failed .cloneFailed, st)
    else
      let st1 := { st with skillsRoot := setDir st.skillsRoot name src.content }
      learnPipeline st1 src.content name env
  else
    if ¬ src.srcExists then (.sourceMissing, st)
    else
      let st1 :=
        if src.inPlace then st
        else { st with skillsRoot := setDir st.skillsRoot name src.content }
      learnPipeline st1 src.content name env
where
  /-- Steps 2-4 of `learn_skill`: environment setup, parse/register,
  persist; an error leaves the state as it was after the copy. -/
  learnPipeline (st1 : SkillSystemState) (content : SkillDirContent)
      (name : String) (env : EnvOutcome) : LearnOutcome × SkillSystemState :=
    match setup_environment content env.venvOk env.pipOk with
    | .error e => (.failed e, st1)
    | .ok _ =>
      match parse_and_register content name st1.loaded_skills with
      | .error e => (.failed e, st1)
      | .ok registry1 =>
        let imported1 :=
          if name ∈ st1.imported_skills then st1.imported_skills
          else st1.imported_skills ++ [name]
        (.success name,
         { st1 with loaded_skills := registry1, imported_skills := imported1 })

/-! ## Concrete fixtures used by counterexamples and witnesses -/

/-- Tool call with id `"a"`. -/
def exToolCallA : ToolCall := ⟨"a", "f", "\x7b\x7d"⟩

/-- Tool call with id `"b"`. -/
def exToolCallB : ToolCall := ⟨"b", "g", "\x7b\x7d"⟩

/-- Assistant message carrying the two calls `a`, `b` (in that order). -/
def exAsstAB : Msg := { role := .assistant, content := "", tool_calls := [exToolCallA, exToolCallB] }

/-- Assistant message carrying the single call `a`. -/
def exAsstA : Msg := { role := .assistant, content := "", tool_calls := [exToolCallA] }

/-- Tool response for call `a`. -/
def exToolA : Msg := { role := .tool, content := "result a", tool_call_id := some "a" }

/-- Tool response for call `b`. -/
def exToolB : Msg := { role := .tool, content := "result b", tool_call_id := some "b" }

/-- A plain user message. -/
def exUser : Msg := { role := .user, content := "hi" }

/-- A plain assistant prose message. -/
def exAsstOk : Msg := { role := .assistant, content := "ok" }

/-- A sentinel alert as `handle_sentinel_trigger` injects it
(host_agent.py lines 388-401): a `system` message whose content starts
with `"[Sentinel Alert <time>]: "`. -/
def exSentinelMsg : Msg :=
  { role := .system, content := "[Sentinel Alert 2026-10-12 00:00:00]: Heartbeat" }

/-- A supervisor-flavoured system message containing `"Supervisor"`. -/
def exSupervisorMsg : Msg := { role := .system, content := "[Supervisor]: keep going" }

/-- A sample stored memory record. -/
def exRec1 : MemRecord := ⟨"r1", "doc one", ⟨"general", some 0, 4, 0⟩⟩

/-- A second sample stored memory record. -/
def exRec2 : MemRecord := ⟨"r2", "doc two", ⟨"general", none, 0, 0⟩⟩

/-! # Theorems

First the shared lemma library, then one theorem (plus witness or
counterexample) per specification claim. -/

/-! ## Sanitizer branch equations -/

theorem mkRecoveryMsg_role (c t : String) : (mkRecoveryMsg c t).role = .tool := rfl

theorem mkRecoveryMsg_tcid (c t : String) : (mkRecoveryMsg c t).tool_call_id = some t := rfl

theorem removeFirst_cons_self (t : String) (ts : List String) :
    removeFirst (t :: ts) t = ts := by
  simp [removeFirst]

theorem sanitizeAux_nil (p : List String) :
    sanitizeAux p [] = p.map (mkRecoveryMsg incompleteContent) := rfl

theorem sanitizeAux_cons_tool_mem (p : List String) (m : Msg) (rest : List Msg) (tid : String)
    (hr : m.role = .tool) (ht : m.tool_call_id = some tid) (hm : tid ∈ p) :
    sanitizeAux p (m :: rest) = m :: sanitizeAux (removeFirst p tid) rest := by
  simp [sanitizeAux, hr, ht, hm]

theorem sanitizeAux_cons_tool_nomem (p : List String) (m : Msg) (rest : List Msg) (tid : String)
    (hr : m.role = .tool) (ht : m.tool_call_id = some tid) (hm : tid ∉ p) :
    sanitizeAux p (m :: rest) = sanitizeAux p rest := by
  simp [sanitizeAux, hr, ht, hm]

theorem sanitizeAux_cons_tool_none (p : List String) (m : Msg) (rest : List Msg)
    (hr : m.role = .tool) (ht : m.tool_call_id = none) :
    sanitizeAux p (m :: rest) = sanitizeAux p rest := by
  simp [sanitizeAux, hr, ht]

theorem sanitizeAux_cons_other_nil (m : Msg) (rest : List Msg) (hr : m.role ≠ .tool) :
    sanitizeAux [] (m :: rest) = m :: sanitizeAux (pendingOf m) rest := by
  simp [sanitizeAux, hr]

theorem sanitizeAux_cons_other (p : List String) (m : Msg) (rest : List Msg)
    (hr : m.role ≠ .tool) (hp : p ≠ []) :
    sanitizeAux p (m :: rest) =
      p.map (mkRecoveryMsg interruptedContent) ++ m :: sanitizeAux (pendingOf m) rest := by
  simp [sanitizeAux, hr, hp]

/-! ## Re-sanitizing a block of synthesized recovery messages -/

theorem sanitizeAux_recovery (c : String) (ys : List Msg) :
    ∀ p : List String, sanitizeAux p (p.map (mkRecoveryMsg c) ++ ys) =
      p.map (mkRecoveryMsg c) ++ sanitizeAux [] ys := by
  intro p
  induction p with
  | nil => simp
  | cons t ts ih =>
    rw [List.map_cons, List.cons_append,
      sanitizeAux_cons_tool_mem _ _ _ t (mkRecoveryMsg_role c t) (mkRecoveryMsg_tcid c t)
        (List.mem_cons_self t ts),
      removeFirst_cons_self, ih]
    simp

/-! ## Idempotence of the sanitizer walk -/

theorem sanitizeAux_idem (xs : List Msg) :
    ∀ p : List String, sanitizeAux p (sanitizeAux p xs) = sanitizeAux p xs := by
  induction xs with
  | nil =>
    intro p
    rw [sanitizeAux_nil]
    simpa [sanitizeAux_nil] using sanitizeAux_recovery incompleteContent [] p
  | cons m rest ih =>
    intro p
    by_cases hr : m.role = .tool
    · cases ht : m.tool_call_id with
      | none => rw [sanitizeAux_cons_tool_none p m rest hr ht, ih]
      | some tid =>
        by_cases hm : tid ∈ p
        · rw [sanitizeAux_cons_tool_mem p m rest tid hr ht hm,
            sanitizeAux_cons_tool_mem p m _ tid hr ht hm, ih]
        · rw [sanitizeAux_cons_tool_nomem p m rest tid hr ht hm, ih]
    · by_cases hp : p = []
      · subst hp
        rw [sanitizeAux_cons_other_nil m rest hr, sanitizeAux_cons_other_nil m _ hr, ih]
      · rw [sanitizeAux_cons_other p m rest hr hp, sanitizeAux_recovery,
          sanitizeAux_cons_other_nil m _ hr, ih]

/-- C2: the sanitizer is idempotent — for every message list `xs`,
`_sanitize_context(_sanitize_context(xs)) = _sanitize_context(xs)`. -/
theorem c2_sanitize_idempotent (xs : List Msg) :
    sanitize_context (sanitize_context xs) = sanitize_context xs :=
  sanitizeAux_idem xs []

/-! ## M-1 checker equations and the sanitizer guarantee -/

theorem m1PermAux_nil_nil : m1PermAux [] [] = true := rfl

theorem m1PermAux_nil_cons (m : Msg) (rest : List Msg) (hr : m.role ≠ .tool) :
    m1PermAux [] (m :: rest) = m1PermAux (pendingOf m) rest := by
  simp [m1PermAux, hr]

theorem m1PermAux_cons_cons_tool (p : String) (ps : List String) (m : Msg) (rest : List Msg)
    (tid : String) (hr : m.role = .tool) (ht : m.tool_call_id = some tid) :
    m1PermAux (p :: ps) (m :: rest) =
      (decide (tid ∈ p :: ps) && m1PermAux (removeFirst (p :: ps) tid) rest) := by
  simp [m1PermAux, hr, ht]

theorem m1PermAux_recovery (c : String) (ys : List Msg) :
    ∀ p : List String, m1PermAux p (p.map (mkRecoveryMsg c) ++ ys) = m1PermAux [] ys := by
  intro p
  induction p with
  | nil => simp
  | cons t ts ih =>
    rw [List.map_cons, List.cons_append,
      m1PermAux_cons_cons_tool t ts _ _ t (mkRecoveryMsg_role c t) (mkRecoveryMsg_tcid c t),
      removeFirst_cons_self, ih]
    simp

theorem m1PermAux_sanitizeAux (xs : List Msg) :
    ∀ p : List String, m1PermAux p (sanitizeAux p xs) = true := by
  induction xs with
  | nil =>
    intro p
    rw [sanitizeAux_nil]
    simpa using m1PermAux_recovery incompleteContent [] p
  | cons m rest ih =>
    intro p
    by_cases hr : m.role = .tool
    · cases ht : m.tool_call_id with
      | none => rw [sanitizeAux_cons_tool_none p m rest hr ht]; exact ih p
      | some tid =>
        by_cases hm : tid ∈ p
        · rw [sanitizeAux_cons_tool_mem p m rest tid hr ht hm]
          cases p with
          | nil => exact absurd hm (List.not_mem_nil tid)
          | cons q qs =>
            rw [m1PermAux_cons_cons_tool q qs m _ tid hr ht]
            simp [hm, ih]
        · rw [sanitizeAux_cons_tool_nomem p m rest tid hr ht hm]; exact ih p
    · by_cases hp : p = []
      · subst hp
        rw [sanitizeAux_cons_other_nil m rest hr, m1PermAux_nil_cons m _ hr]
        exact ih (pendingOf m)
      · rw [sanitizeAux_cons_other p m rest hr hp, m1PermAux_recovery,
          m1PermAux_nil_cons m _ hr]
        exact ih (pendingOf m)

/-- C1 (counterexample): applying the sanitizer to the trailing 3-message
window of the log `[assistant with calls a,b; tool b; tool a]` — exactly
as `get_active_context` does — keeps the two tool responses in arrival
order `b, a`, so the result violates the "in call order" part of the
claimed Invariant M-1. -/
theorem c1_call_order_counterexample :
    m1Strict (sanitize_context (pySliceLast 3 ([exAsstAB, exToolB, exToolA].filter keepMsg)))
      = false := by
  decide

/-- C1 (amended): for every message list and every window size `k ≥ 1`,
the sanitized trailing `k`-message window (as computed by
`get_active_context`) satisfies Invariant M-1 up to response order: every
assistant message with tool_calls is immediately followed by exactly one
tool message per call, matched by `call_id`, the block forming a
permutation of the call ids (call order itself is not restored for
out-of-order responses), and orphan tool messages are removed. -/
theorem c1_chain_integrity_perm (log : List Msg) (k : Nat) (hk : 1 ≤ k) :
    m1Perm (sanitize_context (pySliceLast k (log.filter keepMsg))) = true :=
  m1PermAux_sanitizeAux (pySliceLast k (log.filter keepMsg)) []

/-- Witness for `c1_chain_integrity_perm`: the concrete three-message
log with out-of-order tool responses, window size 3. -/
theorem c1_chain_integrity_perm_witness :
    1 ≤ 3 ∧
      m1Perm (sanitize_context (pySliceLast 3 ([exAsstAB, exToolB, exToolA].filter keepMsg)))
        = true :=
  ⟨by decide, c1_chain_integrity_perm [exAsstAB, exToolB, exToolA] 3 (by decide)⟩

/-! ## End-of-window synthesis -/

theorem sanitizeAux_append_last_asst (a : Msg) (ha : a.role = .assistant)
    (hac : a.tool_calls ≠ []) :
    ∀ (xs : List Msg) (p : List String), ∃ ys,
      sanitizeAux p (xs ++ [a]) =
        ys ++ (a.tool_calls.map ToolCall.id).map (mkRecoveryMsg incompleteContent) := by
  have hr : a.role ≠ .tool := by rw [ha]; intro h; cases h
  intro xs
  induction xs with
  | nil =>
    intro p
    by_cases hp : p = []
    · subst hp
      refine ⟨[a], ?_⟩
      rw [List.nil_append, sanitizeAux_cons_other_nil a [] hr, sanitizeAux_nil]
      simp [pendingOf, ha, hac]
    · refine ⟨p.map (mkRecoveryMsg interruptedContent) ++ [a], ?_⟩
      rw [List.nil_append, sanitizeAux_cons_other p a [] hr hp, sanitizeAux_nil]
      simp [pendingOf, ha, hac]
  | cons m rest ih =>
    intro p
    by_cases hmr : m.role = .tool
    · cases ht : m.tool_call_id with
      | none => rw [List.cons_append, sanitizeAux_cons_tool_none p m _ hmr ht]; exact ih p
      | some tid =>
        by_cases hm : tid ∈ p
        · rw [List.cons_append, sanitizeAux_cons_tool_mem p m _ tid hmr ht hm]
          obtain ⟨ys, hys⟩ := ih (removeFirst p tid)
          exact ⟨m :: ys, by rw [hys, List.cons_append]⟩
        · rw [List.cons_append, sanitizeAux_cons_tool_nomem p m _ tid hmr ht hm]; exact ih p
    · by_cases hp : p = []
      · subst hp
        rw [List.cons_append, sanitizeAux_cons_other_nil m _ hmr]
        obtain ⟨ys, hys⟩ := ih (pendingOf m)
        exact ⟨m :: ys, by rw [hys, List.cons_append]⟩
      · rw [List.cons_append, sanitizeAux_cons_other p m _ hmr hp]
        obtain ⟨ys, hys⟩ := ih (pendingOf m)
        refine ⟨p.map (mkRecoveryMsg interruptedContent) ++ m :: ys, ?_⟩
        rw [hys]
        simp

/-- C3 (counterexample): the synthesized recovery payloads are not the
claimed string `"interrupted; recovered"` — a window ending in an
assistant-with-tool_calls gains a tool message whose content is
`"Error: Tool sequence incomplete at log end."`, and neither that string
nor the mid-walk payload
`"Error: Tool execution was interrupted. System recovered."` contains the
claimed text. -/
theorem c3_payload_counterexample :
    sanitize_context [exAsstA] = [exAsstA, mkRecoveryMsg incompleteContent "a"] ∧
    strContainsSub incompleteContent "interrupted; recovered" = false ∧
    strContainsSub interruptedContent "interrupted; recovered" = false := by
  refine ⟨by decide, by decide, by decide⟩

/-- C3 (amended): whenever the sanitizer meets a non-tool message while
ids are pending it synthesizes one tool message per pending id with
content `"Error: Tool execution was interrupted. System recovered."`; at
the end of the slice residual pending ids get content
`"Error: Tool sequence incomplete at log end."` — so a window ending in
an assistant-with-tool_calls gains, for each missing id, a tool message
carrying the latter payload. -/
theorem c3_synthesis_payloads (pending : List String) (m a : Msg) (rest xs : List Msg)
    (hr : m.role ≠ .tool) (hp : pending ≠ [])
    (ha : a.role = .assistant) (hac : a.tool_calls ≠ []) :
    sanitizeAux pending (m :: rest) =
        pending.map (mkRecoveryMsg interruptedContent) ++ m :: sanitizeAux (pendingOf m) rest ∧
    sanitizeAux pending [] = pending.map (mkRecoveryMsg incompleteContent) ∧
    ∃ ys, sanitize_context (xs ++ [a]) =
        ys ++ (a.tool_calls.map ToolCall.id).map (mkRecoveryMsg incompleteContent) :=
  ⟨sanitizeAux_cons_other pending m rest hr hp, sanitizeAux_nil pending,
   sanitizeAux_append_last_asst a ha hac xs []⟩

/-- Witness for `c3_synthesis_payloads`: pending id `"a"`, a user
message, and the window `[user, assistant-with-call-a]`. -/
theorem c3_synthesis_payloads_witness :
    sanitizeAux ["a"] [exUser] =
        (["a"].map (mkRecoveryMsg interruptedContent)) ++
          exUser :: sanitizeAux (pendingOf exUser) [] ∧
    sanitizeAux ["a"] [] = ["a"].map (mkRecoveryMsg incompleteContent) ∧
    ∃ ys, sanitize_context ([exUser] ++ [exAsstA]) =
        ys ++ (exAsstA.tool_calls.map ToolCall.id).map (mkRecoveryMsg incompleteContent) :=
  c3_synthesis_payloads ["a"] exUser exAsstA [] [exUser]
    (by decide) (by decide) (by decide) (by decide)

/-! ## Provenance of sanitizer output -/

theorem stripFields_role (m : Msg) : (stripFields m).role = m.role := rfl

theorem stripFields_content (m : Msg) : (stripFields m).content = m.content := rfl

theorem mem_sanitizeAux (xs : List Msg) :
    ∀ (p : List String) (m : Msg), m ∈ sanitizeAux p xs → m ∈ xs ∨ m.role = .tool := by
  induction xs with
  | nil =>
    intro p m hm
    rw [sanitizeAux_nil] at hm
    obtain ⟨t, _, rfl⟩ := List.mem_map.mp hm
    exact Or.inr rfl
  | cons m0 rest ih =>
    intro p m hm
    by_cases hr : m0.role = .tool
    · cases ht : m0.tool_call_id with
      | none =>
        rw [sanitizeAux_cons_tool_none p m0 rest hr ht] at hm
        rcases ih p m hm with h | h
        · exact Or.inl (List.mem_cons_of_mem m0 h)
        · exact Or.inr h
      | some tid =>
        by_cases hmem : tid ∈ p
        · rw [sanitizeAux_cons_tool_mem p m0 rest tid hr ht hmem] at hm
          rcases List.mem_cons.mp hm with rfl | hm'
          · exact Or.inl (List.mem_cons_self _ _)
          · rcases ih _ m hm' with h | h
            · exact Or.inl (List.mem_cons_of_mem m0 h)
            · exact Or.inr h
        · rw [sanitizeAux_cons_tool_nomem p m0 rest tid hr ht hmem] at hm
          rcases ih p m hm with h | h
          · exact Or.inl (List.mem_cons_of_mem m0 h)
          · exact Or.inr h
    · by_cases hp : p = []
      · subst hp
        rw [sanitizeAux_cons_other_nil m0 rest hr] at hm
        rcases List.mem_cons.mp hm with rfl | hm'
        · exact Or.inl (List.mem_cons_self _ _)
        · rcases ih _ m hm' with h | h
          · exact Or.inl (List.mem_cons_of_mem m0 h)
          · exact Or.inr h
      · rw [sanitizeAux_cons_other p m0 rest hr hp] at hm
        rcases List.mem_append.mp hm with hm' | hm'
        · obtain ⟨t, _, rfl⟩ := List.mem_map.mp hm'
          exact Or.inr rfl
        · rcases List.mem_cons.mp hm' with rfl | hm''
          · exact Or.inl (List.mem_cons_self _ _)
          · rcases ih _ m hm'' with h | h
            · exact Or.inl (List.mem_cons_of_mem m0 h)
            · exact Or.inr h

theorem mem_pySliceLast (w : Nat) (xs : List Msg) (m : Msg) (hm : m ∈ pySliceLast w xs) :
    m ∈ xs := by
  rw [pySliceLast] at hm
  by_cases hw : w = 0
  · simpa [hw] using hm
  · rw [if_neg hw] at hm
    exact (List.drop_sublist _ xs).subset hm

/-- C4 (counterexample): a system message carrying a Sentinel alert — as
`handle_sentinel_trigger` writes it — is excluded from the window built
by `get_active_context`, although the claim says system messages
signalling a Sentinel event are kept. -/
theorem c4_sentinel_filtered_counterexample :
    get_active_context ⟨[exUser, exSentinelMsg], 10⟩ = [stripFields exUser] ∧
    strContainsSub exSentinelMsg.content "Sentinel" = true ∧
    keepMsg exSentinelMsg = false := by
  refine ⟨by decide, by decide, by decide⟩

/-- C4 (amended): `get_active_context` keeps a system-injected message
if and only if its content contains the substring `"Supervisor"`: every
system message in the built context contains it, and every system message
of the log containing it passes the role filter (Sentinel alerts do not
qualify and are excluded). -/
theorem c4_system_filter (st : MemoryState) (m m₂ : Msg)
    (hmem : m ∈ get_active_context st) (hsys : m.role = .system)
    (h2sys : m₂.role = .system)
    (h2sup : strContainsSub m₂.content "Supervisor" = true)
    (h2mem : m₂ ∈ st.log) :
    strContainsSub m.content "Supervisor" = true ∧ m₂ ∈ st.log.filter keepMsg := by
  constructor
  · by_cases hlog : st.log = []
    · simp [get_active_context, hlog] at hmem
    · rw [get_active_context, if_neg hlog] at hmem
      obtain ⟨m', hm', rfl⟩ := List.mem_map.mp hmem
      rw [stripFields_role] at hsys
      rcases mem_sanitizeAux _ [] m' hm' with hwin | htool
      · have hfil := mem_pySliceLast _ _ m' hwin
        have hkeep := (List.mem_filter.mp hfil).2
        rw [keepMsg, hsys] at hkeep
        simpa [stripFields_content] using hkeep
      · rw [htool] at hsys; cases hsys
  · exact List.mem_filter.mpr ⟨h2mem, by rw [keepMsg]; simp [h2sup]⟩

/-- Witness for `c4_system_filter`: a log holding a user message and a
Supervisor system message, window size 10. -/
theorem c4_system_filter_witness :
    strContainsSub (stripFields exSupervisorMsg).content "Supervisor" = true ∧
      exSupervisorMsg ∈ [exUser, exSupervisorMsg].filter keepMsg :=
  c4_system_filter ⟨[exUser, exSupervisorMsg], 10⟩ (stripFields exSupervisorMsg)
    exSupervisorMsg (by decide) (by decide) (by decide) (by decide) (by decide)

/-- C5 (counterexample): when the config does not specify
`rag_strategy`, the strategy `chat` uses is the string `"semantic"`,
which `search_memory` dispatches to the dense-only `_search_semantic`
routine — not to the BM25 hybrid (`"hybrid_bm25"`). -/
theorem c5_default_strategy_counterexample :
    ragStrategyOf ⟨none⟩ = "semantic" ∧
    chat_retrieval_kind ⟨none⟩ = .semantic ∧
    ¬ chat_retrieval_kind ⟨none⟩ = .hybridBm25 := by
  refine ⟨rfl, by decide, by decide⟩

/-- C5 (amended): at the start of a turn the Orchestrator queries the
Retrieval Store with the strategy read from
`config.system.memory.rag_strategy`; when the config does not specify a
strategy the default used is `"semantic"` (dense-only), and the turn ends
up in the semantic routine. -/
theorem c5_strategy_from_config (cfg cfg₂ : Config) (s : String)
    (hs : (cfg.system.bind SystemCfg.memory).bind MemoryCfg.rag_strategy = some s)
    (h₂ : (cfg₂.system.bind SystemCfg.memory).bind MemoryCfg.rag_strategy = none) :
    ragStrategyOf cfg = s ∧ ragStrategyOf cfg₂ = "semantic" ∧
      chat_retrieval_kind cfg₂ = .semantic := by
  refine ⟨?_, ?_, ?_⟩
  · rw [ragStrategyOf, hs]
    rfl
  · rw [ragStrategyOf, h₂]
    rfl
  · rw [chat_retrieval_kind, ragStrategyOf, h₂]
    decide

/-- Witness for `c5_strategy_from_config`: a config that sets
`rag_strategy: hybrid_bm25` and a config with no `memory` section. -/
theorem c5_strategy_from_config_witness :
    ragStrategyOf ⟨some ⟨some ⟨some "hybrid_bm25", none, none⟩⟩⟩ = "hybrid_bm25" ∧
    ragStrategyOf ⟨none⟩ = "semantic" ∧ chat_retrieval_kind ⟨none⟩ = .semantic :=
  c5_strategy_from_config ⟨some ⟨some ⟨some "hybrid_bm25", none, none⟩⟩⟩ ⟨none⟩
    "hybrid_bm25" rfl rfl

/-- C9 (code bug): `_append_message` derives the id from the wall clock
(`str(int(time.time() * 1000))`), so two consecutive appends falling into
the same millisecond receive the same id — the later id is neither
strictly greater than nor distinct from the earlier one, contradicting
the code's own claim of per-message unique ids. -/
theorem c9_duplicate_id_on_same_millisecond :
    (append_message (append_message [] exUser 1700000000000) exAsstOk 1700000000000).map Msg.id
        = [some "1700000000000", some "1700000000000"] ∧
    ¬ ((append_message (append_message [] exUser 1700000000000) exAsstOk 1700000000000).map
        Msg.id).Nodup := by
  refine ⟨by decide, by decide⟩

/-- C10: when the Supervisor LLM call raises or returns unparseable
JSON, `_supervisor_check` returns the verdict with status `"COMPLETE"`
(no instruction), and the decision point of `chat` therefore finalizes
the turn instead of re-entering the ReAct loop — for any loop counter, a
supervisor failure never extends (and, the exception being caught, never
aborts) the turn. -/
theorem c10_supervisor_failsafe (loops : Nat) (o : LLMOutcome)
    (h : (∃ e, o = .fail e) ∨ o = .ok none) :
    supervisor_check o = ⟨"COMPLETE", none⟩ ∧
      supervisor_step loops o = (.finalize, loops, none) := by
  have hc : supervisor_check o = ⟨"COMPLETE", none⟩ := by
    rcases h with ⟨e, rfl⟩ | rfl <;> rfl
  refine ⟨hc, ?_⟩
  by_cases hl : loops < MAX_SUPERVISOR_LOOPS
  · simp [supervisor_step, hl, hc]
  · simp [supervisor_step, hl]

/-- Witness for `c10_supervisor_failsafe`: a raising LLM call at loop
counter 0. -/
theorem c10_supervisor_failsafe_witness :
    supervisor_check (.fail "boom") = ⟨"COMPLETE", none⟩ ∧
      supervisor_step 0 (.fail "boom") = (.finalize, 0, none) :=
  c10_supervisor_failsafe 0 (.fail "boom") (Or.inl ⟨"boom", rfl⟩)

/-! ## Skill-learning failure behaviour -/

theorem lookupDir_setDir (root : List (String × SkillDirContent)) (n : String)
    (c : SkillDirContent) : lookupDir (setDir root n c) n = some c := by
  induction root with
  | nil => simp [lookupDir, setDir, List.find?]
  | cons x xs ih =>
    by_cases hx : x.1 = n
    · simpa [setDir, List.filter_cons, hx] using ih
    · simpa [setDir, List.filter_cons, hx, lookupDir, List.find?_cons, List.find?] using ih

/-- C8 (counterexample): learning from an existing local directory with
no `skill.yaml`, `mcp.json` or `main.py` reports failure, but the partial
skill directory copied into the skills root is not removed — the skills
root is left changed, refuting the claimed rollback. -/
theorem c8_no_rollback_counterexample :
    (learn_skill {} ⟨false, true, {}, "badskill", false⟩ ⟨true, true, true, true⟩).1
        = .failed .noDefinitionFound ∧
    (learn_skill {} ⟨false, true, {}, "badskill", false⟩ ⟨true, true, true, true⟩).2.skillsRoot
        = [("badskill", {})] ∧
    lookupDir (learn_skill {} ⟨false, true, {}, "badskill", false⟩
        ⟨true, true, true, true⟩).2.skillsRoot "badskill" = some {} := by
  refine ⟨by decide, by decide, by decide⟩

/-- C8 (amended): when `learn_skill` fails on invalid structure after a
local source was copied into the skills root (missing definition file or
entry point, failed dependency installation, broken venv), it reports
failure but performs no rollback: the partial skill directory remains in
the skills root under the derived name, while the in-memory registry and
the `imported_skills` config section are left unchanged. -/
theorem c8_learn_failure_no_rollback (st : SkillSystemState) (src : LearnSource)
    (env : EnvOutcome) (e : LearnErr)
    (hu : src.isUrl = false) (hx : src.srcExists = true) (hip : src.inPlace = false)
    (hfail : (learn_skill st src env).1 = .failed e) :
    lookupDir (learn_skill st src env).2.skillsRoot src.derivedName = some src.content ∧
    (learn_skill st src env).2.loaded_skills = st.loaded_skills ∧
    (learn_skill st src env).2.imported_skills = st.imported_skills := by
  rw [learn_skill, hu, hx, hip] at hfail ⊢
  simp only [Bool.false_eq_true, if_false, not_true_eq_false, if_true,
    Bool.not_false, Bool.not_true] at hfail ⊢
  cases hsetup : setup_environment src.content env.venvOk env.pipOk with
  | error e1 =>
    rw [learn_skill.learnPipeline, hsetup]
    exact ⟨lookupDir_setDir _ _ _, rfl, rfl⟩
  | ok u =>
    cases hparse : parse_and_register src.content src.derivedName st.loaded_skills with
    | error e2 =>
      rw [learn_skill.learnPipeline, hsetup, hparse]
      exact ⟨lookupDir_setDir _ _ _, rfl, rfl⟩
    | ok reg1 =>
      rw [learn_skill.learnPipeline, hsetup, hparse] at hfail
      simp at hfail

/-- Witness for `c8_learn_failure_no_rollback`: empty initial state, an
existing local source directory with no definition files. -/
theorem c8_learn_failure_no_rollback_witness :
    lookupDir (learn_skill {} ⟨false, true, {}, "bad2", false⟩
        ⟨true, true, true, true⟩).2.skillsRoot "bad2" = some {} ∧
    (learn_skill {} ⟨false, true, {}, "bad2", false⟩
        ⟨true, true, true, true⟩).2.loaded_skills = [] ∧
    (learn_skill {} ⟨false, true, {}, "bad2", false⟩
        ⟨true, true, true, true⟩).2.imported_skills = [] :=
  c8_learn_failure_no_rollback {} ⟨false, true, {}, "bad2", false⟩
    ⟨true, true, true, true⟩ .noDefinitionFound rfl rfl rfl (by decide)


/-! ## Access statistics -/

theorem findRec_cons_eq (x : MemRecord) (xs : List MemRecord) (rid : String)
    (h : x.rid = rid) : findRec (x :: xs) rid = some x := by
  simp [findRec, List.find?_cons, h]

theorem findRec_cons_ne (x : MemRecord) (xs : List MemRecord) (rid : String)
    (h : ¬ x.rid = rid) : findRec (x :: xs) rid = findRec xs rid := by
  simp [findRec, List.find?_cons, h]

theorem applyUpd_rid (upd : List (String × MemMeta)) (x : MemRecord) :
    (applyUpd upd x).rid = x.rid := by
  rw [applyUpd]
  cases h : upd.find? (fun p => decide (p.1 = x.rid)) with
  | none => rfl
  | some p => rfl

theorem findRec_map_of_nodup (F : MemRecord → MemRecord)
    (hF : ∀ x, (F x).rid = x.rid) :
    ∀ (store : List MemRecord) (r : MemRecord), r ∈ store →
      (store.map MemRecord.rid).Nodup → findRec (store.map F) r.rid = some (F r) := by
  intro store
  induction store with
  | nil => intro r hr _; simp at hr
  | cons x xs ih =>
    intro r hr hnd
    rw [List.map_cons] at hnd ⊢
    rcases List.mem_cons.mp hr with rfl | hr'
    · exact findRec_cons_eq _ _ _ (hF r)
    · have hne : x.rid ≠ r.rid := by
        intro he
        exact (List.nodup_cons.mp hnd).1 (he ▸ List.mem_map_of_mem MemRecord.rid hr')
      rw [findRec_cons_ne _ _ _ (by rw [hF x]; exact hne)]
      exact ih r hr' (List.nodup_cons.mp hnd).2

theorem find_pair_of_nodup (g : MemRecord → MemMeta) :
    ∀ (sel : List MemRecord) (r : MemRecord), r ∈ sel →
      (sel.map MemRecord.rid).Nodup →
      (sel.map (fun q => (q.rid, g q))).find? (fun p => decide (p.1 = r.rid))
        = some (r.rid, g r) := by
  intro sel
  induction sel with
  | nil => intro r hr _; simp at hr
  | cons x xs ih =>
    intro r hr hnd
    rw [List.map_cons] at hnd ⊢
    rcases List.mem_cons.mp hr with rfl | hr'
    · simp [List.find?_cons]
    · have hne : x.rid ≠ r.rid := by
        intro he
        exact (List.nodup_cons.mp hnd).1 (he ▸ List.mem_map_of_mem MemRecord.rid hr')
      rw [List.find?_cons_of_neg _ (by simp [hne])]
      exact ih r hr' (List.nodup_cons.mp hnd).2

theorem findRec_increment_stats (store sel : List MemRecord) (now : Int) (r : MemRecord)
    (hr : r ∈ sel) (hsub : ∀ q ∈ sel, q ∈ store)
    (hndS : (store.map MemRecord.rid).Nodup)
    (hndQ : (sel.map MemRecord.rid).Nodup) :
    findRec (increment_stats now (sel.map MemRecord.rid) (sel.map MemRecord.meta) store) r.rid
      = some ⟨r.rid, r.document, bumpMeta now r.meta⟩ := by
  have hzip : (sel.map MemRecord.rid).zip ((sel.map MemRecord.meta).map (bumpMeta now))
      = sel.map (fun q => (q.rid, bumpMeta now q.meta)) := by
    rw [List.map_map, List.zip_map']
    rfl
  rw [increment_stats, hzip, collection_update,
    findRec_map_of_nodup (applyUpd _) (applyUpd_rid _) store r (hsub r hr) hndS,
    applyUpd, find_pair_of_nodup (fun q => bumpMeta now q.meta) sel r hr hndQ]

theorem hybrid_time_selected_nil (now : Int) (n : Nat) :
    hybrid_time_selected [] now n = [] := by
  simp [hybrid_time_selected, sortDescBy]

theorem search_semantic_snd (store queryRes : List MemRecord) (now : Int)
    (hne : queryRes ≠ []) :
    (search_semantic store queryRes now true).2 =
      increment_stats now (queryRes.map MemRecord.rid) (queryRes.map MemRecord.meta) store := by
  simp [search_semantic, hne]

theorem search_hybrid_time_snd (store : List MemRecord) (semRes : List (MemRecord × ℚ))
    (now : Int) (n : Nat) (hne : semRes ≠ []) :
    (search_hybrid_time store semRes now n true).2 =
      increment_stats now
        ((hybrid_time_selected semRes now n).map (fun x => x.record.rid))
        ((hybrid_time_selected semRes now n).map (fun x => x.record.meta)) store := by
  simp [search_hybrid_time, hne]

theorem search_hybrid_bm25_snd (store : List MemRecord) (semRes : List (MemRecord × ℚ))
    (bm25Res : List (Nat × ℚ)) (cache : List MemRecord) (n : Nat) (now : Int) :
    (search_hybrid_bm25 store semRes bm25Res cache n now true).2 =
      increment_stats now
        ((hybrid_bm25_selected semRes bm25Res cache n).map (fun x => x.record.rid))
        ((hybrid_bm25_selected semRes bm25Res cache n).map (fun x => x.record.meta)) store := by
  simp [search_hybrid_bm25]

theorem search_memory_snd_eq (store : List MemRecord) (s : String) (inp : SearchInputs)
    (now : Int) (r : MemRecord) (hr : r ∈ selected_records s inp now) :
    (search_memory store s inp now true).2 =
      increment_stats now ((selected_records s inp now).map MemRecord.rid)
        ((selected_records s inp now).map MemRecord.meta) store := by
  cases hd : strategyDispatch s with
  | semantic =>
    rw [selected_records, hd] at hr ⊢
    have hne : inp.queryRes ≠ [] := by intro h; rw [h] at hr; simp at hr
    rw [search_memory, hd]
    exact search_semantic_snd store inp.queryRes now hne
  | hybridTime =>
    rw [selected_records, hd] at hr ⊢
    have hne : inp.semRes ≠ [] := by
      intro h
      rw [h, hybrid_time_selected_nil] at hr
      simp at hr
    rw [search_memory, hd, List.map_map, List.map_map]
    exact search_hybrid_time_snd store inp.semRes now inp.nResults hne
  | hybridBm25 =>
    rw [selected_records, hd] at hr ⊢
    rw [search_memory, hd, List.map_map, List.map_map]
    exact search_hybrid_bm25_snd store inp.semRes inp.bm25Res inp.cache inp.nResults now

theorem search_memory_fst_indep (store : List MemRecord) (s : String) (inp : SearchInputs)
    (now : Int) :
    (search_memory store s inp now true).1 = (search_memory store s inp now false).1 := by
  rw [search_memory, search_memory]
  cases strategyDispatch s with
  | semantic =>
    by_cases h : inp.queryRes = [] <;> simp [search_semantic, h]
  | hybridTime =>
    by_cases h : inp.semRes = [] <;> simp [search_hybrid_time, h]
  | hybridBm25 => simp [search_hybrid_bm25]

/-- C6: for every `search_memory` call, under any strategy, each record
in the returned set R has its `access_count` incremented by exactly 1 and
its `last_accessed` set to the update time (which is at or after the call
time); and a swallowed failure of the statistics update does not change
the returned document list. -/
theorem c6_retrieval_stats (store : List MemRecord) (s : String) (inp : SearchInputs)
    (now callTime : Int) (r : MemRecord)
    (hr : r ∈ selected_records s inp now)
    (hsub : ∀ q ∈ selected_records s inp now, q ∈ store)
    (hndS : (store.map MemRecord.rid).Nodup)
    (hndQ : ((selected_records s inp now).map MemRecord.rid).Nodup)
    (htime : callTime ≤ now) :
    findRec (search_memory store s inp now true).2 r.rid
        = some ⟨r.rid, r.document, bumpMeta now r.meta⟩ ∧
    (bumpMeta now r.meta).access_count = r.meta.access_count + 1 ∧
    (bumpMeta now r.meta).last_accessed = now ∧
    callTime ≤ (bumpMeta now r.meta).last_accessed ∧
    (search_memory store s inp now true).1 = (search_memory store s inp now false).1 := by
  refine ⟨?_, rfl, rfl, htime, search_memory_fst_indep store s inp now⟩
  rw [search_memory_snd_eq store s inp now r hr]
  exact findRec_increment_stats store _ now r hr hsub hndS hndQ

/-- Witness for `c6_retrieval_stats`: a two-record store queried with the
semantic strategy returning exactly `exRec1`, call time 42, update time
99. -/
theorem c6_retrieval_stats_witness :
    findRec (search_memory [exRec1, exRec2] "semantic" { queryRes := [exRec1] } 99 true).2
        exRec1.rid = some ⟨exRec1.rid, exRec1.document, bumpMeta 99 exRec1.meta⟩ ∧
    (bumpMeta 99 exRec1.meta).access_count = exRec1.meta.access_count + 1 ∧
    (bumpMeta 99 exRec1.meta).last_accessed = 99 ∧
    (42 : Int) ≤ (bumpMeta 99 exRec1.meta).last_accessed ∧
    (search_memory [exRec1, exRec2] "semantic" { queryRes := [exRec1] } 99 true).1
      = (search_memory [exRec1, exRec2] "semantic" { queryRes := [exRec1] } 99 false).1 :=
  c6_retrieval_stats [exRec1, exRec2] "semantic" { queryRes := [exRec1] } 99 42 exRec1
    (by decide) (by decide) (by decide) (by decide) (by decide)

/-! ## Sorting facts -/

theorem mem_insertDescBy (f : α → ℚ) (x : α) :
    ∀ (l : List α) (z : α), z ∈ insertDescBy f x l ↔ z = x ∨ z ∈ l := by
  intro l
  induction l with
  | nil => intro z; simp [insertDescBy]
  | cons y ys ih =>
    intro z
    rw [insertDescBy]
    by_cases hlt : f y < f x
    · rw [if_pos hlt]
      simp only [List.mem_cons]
    · rw [if_neg hlt]
      simp only [List.mem_cons, ih z]
      tauto

theorem pairwise_insertDescBy (f : α → ℚ) (x : α) :
    ∀ l : List α, l.Pairwise (fun a b => f b ≤ f a) →
      (insertDescBy f x l).Pairwise (fun a b => f b ≤ f a) := by
  intro l
  induction l with
  | nil => intro _; simp [insertDescBy]
  | cons y ys ih =>
    intro h
    rw [insertDescBy]
    by_cases hlt : f y < f x
    · rw [if_pos hlt]
      refine List.pairwise_cons.mpr ⟨?_, h⟩
      intro z hz
      rcases List.mem_cons.mp hz with rfl | hz'
      · exact le_of_lt hlt
      · exact le_trans ((List.pairwise_cons.mp h).1 z hz') (le_of_lt hlt)
    · rw [if_neg hlt]
      refine List.pairwise_cons.mpr ⟨?_, ih (List.pairwise_cons.mp h).2⟩
      intro z hz
      rcases (mem_insertDescBy f x ys z).mp hz with rfl | hz'
      · exact not_lt.mp hlt
      · exact (List.pairwise_cons.mp h).1 z hz'

theorem pairwise_sortDescBy_aux (f : α → ℚ) :
    ∀ (xs acc : List α), acc.Pairwise (fun a b => f b ≤ f a) →
      (xs.foldl (fun a x => insertDescBy f x a) acc).Pairwise (fun a b => f b ≤ f a) := by
  intro xs
  induction xs with
  | nil => intro acc h; simpa using h
  | cons x xs ih =>
    intro acc h
    exact ih (insertDescBy f x acc) (pairwise_insertDescBy f x acc h)

theorem pairwise_sortDescBy (f : α → ℚ) (xs : List α) :
    (sortDescBy f xs).Pairwise (fun a b => f b ≤ f a) :=
  pairwise_sortDescBy_aux f xs [] (List.Pairwise.nil)

theorem mem_sortDescBy_aux (f : α → ℚ) :
    ∀ (xs acc : List α) (z : α), z ∈ xs.foldl (fun a x => insertDescBy f x a) acc →
      z ∈ acc ∨ z ∈ xs := by
  intro xs
  induction xs with
  | nil => intro acc z hz; exact Or.inl hz
  | cons x xs ih =>
    intro acc z hz
    rcases ih (insertDescBy f x acc) z hz with h | h
    · rcases (mem_insertDescBy f x acc z).mp h with rfl | h'
      · exact Or.inr (List.mem_cons_self _ _)
      · exact Or.inl h'
    · exact Or.inr (List.mem_cons_of_mem x h)

theorem mem_sortDescBy (f : α → ℚ) (xs : List α) (z : α) (hz : z ∈ sortDescBy f xs) :
    z ∈ xs := by
  rcases mem_sortDescBy_aux f xs [] z hz with h | h
  · simp at h
  · exact h

/-! ## BM25 result-list facts -/

theorem bm25Search_pos (score : Nat → ℚ) (corpusSize topK : Nat) :
    ∀ x ∈ bm25Search score corpusSize topK, 0 < x.2 := by
  intro x hx
  have h1 : x ∈ sortDescBy Prod.snd
      (((List.range corpusSize).map (fun i => (i, score i))).filter
        (fun p => decide (0 < p.2))) := (List.take_sublist _ _).subset hx
  have h2 := mem_sortDescBy _ _ _ h1
  have := (List.mem_filter.mp h2).2
  simpa using this

theorem bm25MaxOf_head_bound (l : List (Nat × ℚ))
    (hp : l.Pairwise (fun a b : Nat × ℚ => b.2 ≤ a.2)) :
    ∀ x ∈ l, x.2 ≤ bm25MaxOf l := by
  intro x hx
  cases l with
  | nil => simp at hx
  | cons h t =>
    rw [bm25MaxOf]
    rcases List.mem_cons.mp hx with rfl | hx'
    · exact le_refl _
    · exact (List.pairwise_cons.mp hp).1 x hx'

theorem bm25Search_le_max (score : Nat → ℚ) (corpusSize topK : Nat) :
    ∀ x ∈ bm25Search score corpusSize topK,
      x.2 ≤ bm25MaxOf (bm25Search score corpusSize topK) := by
  have hp : (bm25Search score corpusSize topK).Pairwise (fun a b : Nat × ℚ => b.2 ≤ a.2) :=
    (pairwise_sortDescBy Prod.snd _).sublist (List.take_sublist _ _)
  exact bm25MaxOf_head_bound _ hp

theorem bm25MaxOf_nonneg (score : Nat → ℚ) (corpusSize topK : Nat) :
    0 ≤ bm25MaxOf (bm25Search score corpusSize topK) := by
  cases hl : bm25Search score corpusSize topK with
  | nil => rw [bm25MaxOf]
  | cons h t =>
    rw [bm25MaxOf]
    have := bm25Search_pos score corpusSize topK h (by rw [hl]; exact List.mem_cons_self _ _)
    exact le_of_lt this

/-! ## Score bounds -/

theorem simOfDist_pos (d : ℚ) (hd : 0 ≤ d) : 0 < simOfDist d := by
  rw [simOfDist]
  positivity

theorem simOfDist_le_one (d : ℚ) (hd : 0 ≤ d) : simOfDist d ≤ 1 := by
  rw [simOfDist, div_le_one (by linarith)]
  linarith

theorem timeDecayScore_bounds (now : Int) (ts : Option Int)
    (h : ts.getD now ≤ now) : 0 ≤ timeDecayScore now ts ∧ timeDecayScore now ts ≤ 1 := by
  cases ts with
  | none => rw [timeDecayScore]; norm_num
  | some t =>
    rw [timeDecayScore]
    have hdays : (0 : ℚ) ≤ ((now - t : Int) : ℚ) := by
      have : t ≤ now := by simpa using h
      have : (0 : Int) ≤ now - t := by omega
      exact_mod_cast this
    have hden : (1 : ℚ) ≤ 1 + ((now - t : Int) : ℚ) / 10 := by linarith
    rw [if_neg (by linarith)]
    constructor
    · positivity
    · rw [div_le_one (by linarith)]
      linarith

theorem foldl_max_le_init (l : List (MemRecord × ℚ)) :
    ∀ a : ℚ, a ≤ l.foldl (fun acc rd => max acc (simOfDist rd.2)) a := by
  induction l with
  | nil => intro a; exact le_refl a
  | cons x xs ih =>
    intro a
    exact le_trans (le_max_left a (simOfDist x.2)) (ih (max a (simOfDist x.2)))

theorem mem_le_foldl_max (l : List (MemRecord × ℚ)) :
    ∀ (a : ℚ) (rd : MemRecord × ℚ), rd ∈ l →
      simOfDist rd.2 ≤ l.foldl (fun acc rd => max acc (simOfDist rd.2)) a := by
  induction l with
  | nil => intro a rd h; simp at h
  | cons x xs ih =>
    intro a rd h
    rcases List.mem_cons.mp h with rfl | h'
    · exact le_trans (le_max_right a (simOfDist rd.2)) (foldl_max_le_init xs _)
    · exact ih _ rd h'

theorem le_semMaxOf (semRes : List (MemRecord × ℚ)) (rd : MemRecord × ℚ)
    (h : rd ∈ semRes) : simOfDist rd.2 ≤ semMaxOf semRes :=
  mem_le_foldl_max semRes 0 rd h

theorem semMaxOf_nonneg (semRes : List (MemRecord × ℚ)) : 0 ≤ semMaxOf semRes :=
  foldl_max_le_init semRes 0

theorem addBm25_inv (cache : List MemRecord) (semMax bm25Max : ℚ)
    (h0 : 0 ≤ semMax) (hbm0 : 0 ≤ bm25Max) :
    ∀ (l : List (Nat × ℚ)) (cands : List FusionCand),
      (∀ x ∈ l, 0 < x.2 ∧ x.2 ≤ bm25Max) →
      (∀ c ∈ cands, 0 ≤ c.sem_score ∧ c.sem_score ≤ semMax ∧
        0 ≤ c.bm25_score ∧ c.bm25_score ≤ bm25Max) →
      ∀ c ∈ addBm25 cache cands l,
        0 ≤ c.sem_score ∧ c.sem_score ≤ semMax ∧
          0 ≤ c.bm25_score ∧ c.bm25_score ≤ bm25Max := by
  intro l
  induction l with
  | nil =>
    intro cands _ hc c hcm
    rw [addBm25] at hcm
    exact hc c hcm
  | cons p rest ih =>
    intro cands hl hc c hcm
    obtain ⟨idx, s⟩ := p
    have hs : 0 < s ∧ s ≤ bm25Max := hl (idx, s) (List.mem_cons_self _ _)
    have hlrest : ∀ x ∈ rest, 0 < x.2 ∧ x.2 ≤ bm25Max :=
      fun x hx => hl x (List.mem_cons_of_mem _ hx)
    simp only [addBm25] at hcm
    by_cases hidx : idx < cache.length
    · rw [dif_pos hidx] at hcm
      by_cases hany :
          cands.any (fun c => decide (c.record.rid = (cache.get ⟨idx, hidx⟩).rid)) = true
      · rw [if_pos hany] at hcm
        refine ih _ hlrest ?_ c hcm
        intro c' hc'
        obtain ⟨c₀, hc₀, rfl⟩ := List.mem_map.mp hc'
        obtain ⟨g1, g2, g3, g4⟩ := hc c₀ hc₀
        by_cases he : c₀.record.rid = (cache.get ⟨idx, hidx⟩).rid
        · rw [if_pos he]
          exact ⟨g1, g2, le_of_lt hs.1, hs.2⟩
        · rw [if_neg he]
          exact ⟨g1, g2, g3, g4⟩
      · rw [if_neg hany] at hcm
        refine ih _ hlrest ?_ c hcm
        intro c' hc'
        rcases List.mem_append.mp hc' with h | h
        · exact hc c' h
        · have : c' = ⟨cache.get ⟨idx, hidx⟩, 0, s⟩ := by simpa using h
          rw [this]
          exact ⟨le_refl 0, h0, le_of_lt hs.1, hs.2⟩
    · rw [dif_neg hidx] at hcm
      exact ih _ hlrest hc c hcm

theorem fusionScores_bound (semMax bm25Max : ℚ) (cands : List FusionCand)
    (hc : ∀ c ∈ cands, 0 ≤ c.sem_score ∧ c.sem_score ≤ semMax ∧
      0 ≤ c.bm25_score ∧ c.bm25_score ≤ bm25Max) :
    ∀ x ∈ fusionScores semMax bm25Max cands, 0 ≤ x.score ∧ x.score ≤ 1 := by
  intro x hx
  obtain ⟨c, hcm, rfl⟩ := List.mem_map.mp hx
  obtain ⟨g1, g2, g3, g4⟩ := hc c hcm
  dsimp only
  have hns : 0 ≤ (if 0 < semMax then c.sem_score / semMax else 0) ∧
      (if 0 < semMax then c.sem_score / semMax else 0) ≤ 1 := by
    by_cases h : 0 < semMax
    · rw [if_pos h]
      exact ⟨div_nonneg g1 (le_of_lt h), (div_le_one h).mpr g2⟩
    · rw [if_neg h]
      norm_num
  have hnb : 0 ≤ (if 0 < bm25Max then c.bm25_score / bm25Max else 0) ∧
      (if 0 < bm25Max then c.bm25_score / bm25Max else 0) ≤ 1 := by
    by_cases h : 0 < bm25Max
    · rw [if_pos h]
      exact ⟨div_nonneg g3 (le_of_lt h), (div_le_one h).mpr g4⟩
    · rw [if_neg h]
      norm_num
  constructor
  · linarith [hns.1, hnb.1]
  · linarith [hns.2, hnb.2]

/-- C7: under both hybrid strategies, every candidate's final combined
score lies in `[0, 1]` (given the vector database's distances are
non-negative and stored timestamps are not in the future), and the
semantic and auxiliary weights sum to 1.0 (0.7 semantic + 0.3 BM25, and
0.7 semantic + 0.3 time-decay). -/
theorem c7_hybrid_score_bounds (semRes : List (MemRecord × ℚ)) (score : Nat → ℚ)
    (corpusSize topK : Nat) (cache : List MemRecord) (n : Nat) (now : Int)
    (x y : ScoredRec)
    (hd : ∀ rd ∈ semRes, 0 ≤ rd.2)
    (ht : ∀ rd ∈ semRes, rd.1.meta.timestamp.getD now ≤ now)
    (hx : x ∈ hybrid_bm25_selected semRes (bm25Search score corpusSize topK) cache n)
    (hy : y ∈ hybrid_time_selected semRes now n) :
    (0 ≤ x.score ∧ x.score ≤ 1) ∧ (0 ≤ y.score ∧ y.score ≤ 1) ∧
      (7 : ℚ) / 10 + 3 / 10 = 1 := by
  refine ⟨?_, ?_, by norm_num⟩
  · have hx1 : x ∈ sortDescBy ScoredRec.score
        (fusionScores (semMaxOf semRes) (bm25MaxOf (bm25Search score corpusSize topK))
          (addBm25 cache (semRes.map (fun rd => ⟨rd.1, simOfDist rd.2, 0⟩))
            (bm25Search score corpusSize topK))) := by
      have h0 := hx
      simp only [hybrid_bm25_selected] at h0
      exact (List.take_sublist _ _).subset h0
    have hx2 := mem_sortDescBy _ _ _ hx1
    refine fusionScores_bound _ _ _ ?_ x hx2
    refine addBm25_inv cache (semMaxOf semRes) (bm25MaxOf (bm25Search score corpusSize topK))
      (semMaxOf_nonneg semRes) (bm25MaxOf_nonneg score corpusSize topK)
      (bm25Search score corpusSize topK)
      (semRes.map (fun rd => ⟨rd.1, simOfDist rd.2, 0⟩))
      (fun z hz => ⟨bm25Search_pos score corpusSize topK z hz,
        bm25Search_le_max score corpusSize topK z hz⟩) ?_
    intro c hcm
    obtain ⟨rd, hrd, rfl⟩ := List.mem_map.mp hcm
    exact ⟨le_of_lt (simOfDist_pos rd.2 (hd rd hrd)), le_semMaxOf semRes rd hrd,
      le_refl 0, bm25MaxOf_nonneg score corpusSize topK⟩
  · have hy1 : y ∈ semRes.map (hybridTimeScore now) := by
      have h0 := hy
      simp only [hybrid_time_selected] at h0
      exact mem_sortDescBy _ _ _ ((List.take_sublist _ _).subset h0)
    obtain ⟨rd, hrd, rfl⟩ := List.mem_map.mp hy1
    have hsim1 := simOfDist_pos rd.2 (hd rd hrd)
    have hsim2 := simOfDist_le_one rd.2 (hd rd hrd)
    have htd := timeDecayScore_bounds now rd.1.meta.timestamp (ht rd hrd)
    rw [hybridTimeScore]
    dsimp only
    constructor
    · linarith [htd.1]
    · linarith [htd.2]

/-- Witness for `c7_hybrid_score_bounds`: a one-record store queried at
distance 0 with an empty BM25 corpus, query time 0. -/
theorem c7_hybrid_score_bounds_witness :
    (0 ≤ (⟨exRec1, 7/10⟩ : ScoredRec).score ∧ (⟨exRec1, 7/10⟩ : ScoredRec).score ≤ 1) ∧
    (0 ≤ (⟨exRec1, 1⟩ : ScoredRec).score ∧ (⟨exRec1, 1⟩ : ScoredRec).score ≤ 1) ∧
      (7 : ℚ) / 10 + 3 / 10 = 1 :=
  c7_hybrid_score_bounds [(exRec1, 0)] (fun _ => 0) 0 8 [exRec1] 3 0
    ⟨exRec1, 7/10⟩ ⟨exRec1, 1⟩
    (by norm_num)
    (by norm_num [exRec1])
    (by norm_num [hybrid_bm25_selected, bm25Search, sortDescBy, insertDescBy, fusionScores,
      addBm25, semMaxOf, bm25MaxOf, simOfDist, List.range])
    (by norm_num [hybrid_time_selected, sortDescBy, insertDescBy, hybridTimeScore, simOfDist,
      timeDecayScore, exRec1])
